import Mathlib

/-!
Verification of the path grammar and format translator of `wslpath`
(`src/main.go`).  Strings are embedded as `List Char` (Go iterates runes;
all paths of interest are ASCII, where byte and rune indexing agree).
-/

namespace Wslpath

/-- Shorthand: the character list underlying a string literal. -/
def str (s : String) : List Char := s.data

/-- Format represents an enumeration of possible file path formats
(`Format` in main.go: `Windows`, `Unix`, `Any`). -/
inductive Format where
  | Windows : Format
  | Unix : Format
  | Any : Format
deriving DecidableEq, Repr

/-- `Format.issep` (main.go): whether a rune is the format's separator;
`Any` accepts both. -/
def Format.issep : Format → Char → Bool
  | .Windows, c => c = '\\'
  | .Unix, c => c = '/'
  | .Any, c => c = '/' || c = '\\'

/-- `Format.sep` (main.go): the separator rune; `'\\'` for Windows,
`'/'` otherwise. -/
def Format.sep : Format → Char
  | .Windows => '\\'
  | _ => '/'

/-- ASCII drive-letter test used in `SplitVolume` and `Identify`:
`('a' <= d && d <= 'z') || ('A' <= d && d <= 'Z')`. -/
def isDriveLetter (d : Char) : Bool :=
  ('a' ≤ d && d ≤ 'z') || ('A' ≤ d && d ≤ 'Z')

/-- Inner loop of the UNC scan in `SplitVolume`: collect the share segment
up to the next `'\\'` or end of string, returning `(share, rest)`. -/
def takeShare : List Char → List Char × List Char
  | [] => ([], [])
  | c :: t =>
    if c = '\\' then ([], c :: t)
    else
      let p := takeShare t
      (c :: p.1, p.2)

/-- Host/share scan of `SplitVolume` on the suffix starting at byte index 3
(the Go loop `for n := 3; n < len(s)-1; n++`).  Returns the characters of
the volume beyond index 2 together with the remainder, or `none` when the
UNC match fails.  A separator in final position is never examined (the loop
bound), hence the one-element base case fails. -/
def uncScan : List Char → Option (List Char × List Char)
  | [] => none
  | [_] => none
  | a :: b :: t =>
    if a = '\\' then
      if b = '\\' then none
      else if b = '.' then none
      else
        let p := takeShare t
        some ('\\' :: b :: p.1, p.2)
    else
      match uncScan (b :: t) with
      | none => none
      | some (v, rest) => some (a :: v, rest)

/-- `Format.SplitVolume` (main.go): separate a Windows-format path into
volume (drive letter `X:` or UNC `\\host\share`) and path.  Non-Windows
formats and non-matching paths return an empty volume. -/
def Format.SplitVolume (f : Format) (s : List Char) : List Char × List Char :=
  if f ≠ .Windows then ([], s)
  else
    match s with
    | [] => ([], s)
    | [_] => ([], s)
    | d :: c1 :: r =>
      if c1 = ':' && isDriveLetter d then ([d, ':'], r)
      else
        match d, c1, r with
        | '\\', '\\', c2 :: r' =>
          -- len(s) >= 5, leading `\\`, third char neither `\` nor `.`
          if 2 ≤ r'.length && !(c2 = '\\') && !(c2 = '.') then
            match uncScan r' with
            | some (v, rest) => ('\\' :: '\\' :: c2 :: v, rest)
            | none => ([], s)
          else ([], s)
        | _, _, _ => ([], s)

/-- Buffer-passing loop of `Format.Elements` (main.go): on each separator the
current buffer is appended (even when empty); the final buffer is appended
only when nonempty. -/
def elemAux (f : Format) (b : List Char) : List Char → List (List Char)
  | [] => if b.isEmpty then [] else [b]
  | c :: t => if f.issep c then b :: elemAux f [] t else elemAux f (b ++ [c]) t

/-- `Format.Elements` (main.go): split a path into components on the
format's separator using a builder buffer. -/
def Format.Elements (f : Format) (s : List Char) : List (List Char) :=
  elemAux f [] s

/-- One pass of `strings.ReplaceAll(s, d, u)` in `Clean`, where `d` is the
doubled separator and `u` the separator: replace non-overlapping
occurrences of `[c, c]` by `[c]`, left to right. -/
def collapseStep (c : Char) : List Char → List Char
  | [] => []
  | [a] => [a]
  | a :: b :: t =>
    if a = c && b = c then c :: collapseStep c t
    else a :: collapseStep c (b :: t)

/-- The fixpoint loop of `Clean` around `ReplaceAll`
(`for n := 0; n != len(s); { n = len(s); s = strings.ReplaceAll(s, d, u) }`),
with fuel bounding the number of iterations (each continuing iteration
strictly shrinks the string, so `s.length` iterations suffice). -/
def collapseIter (c : Char) : Nat → List Char → List Char
  | 0, s => s
  | n + 1, s =>
    if (collapseStep c s).length = s.length then collapseStep c s
    else collapseIter c n (collapseStep c s)

/-- Separator collapsing in `Clean`: repeat `ReplaceAll(s, d, u)` until the
length no longer changes (no iteration happens on the empty string). -/
def collapse (c : Char) (s : List Char) : List Char :=
  if s.isEmpty then s else collapseIter c s.length s

/-- The path element `".."`. -/
def dd : List Char := ['.', '.']

/-- One pass of the inner `for i := range p` loop of `Clean` that removes a
`".."` element together with its non-`".."` predecessor.  The `Bool`
argument records whether we are at the first element (`i == 0`); the
returned flag is Go's `done` (no pair was removed). -/
def passAux : Bool → List (List Char) → List (List Char) × Bool
  | _, [] => ([], true)
  | _, [a] => ([a], true)
  | first, a :: b :: t =>
    if a ≠ dd ∧ b = dd then
      -- pair found: `b` is skipped; `a` is kept only when it is the
      -- leading empty element of a rooted path
      (if first ∧ a = [] then a :: (passAux false t).1 else (passAux false t).1,
        false)
    else
      (a :: (passAux false (b :: t)).1, (passAux false (b :: t)).2)

/-- The outer `for { ... }` loop of `Clean` repeating `passAux` until no
change was performed, with fuel (each continuing pass strictly shrinks the
list). -/
def reduceIter : Nat → List (List Char) → List (List Char)
  | 0, p => p
  | n + 1, p =>
    if (passAux true p).2 then (passAux true p).1
    else reduceIter n (passAux true p).1

/-- The `".."`-removal loop of `Clean`, run to convergence. -/
def reduce (p : List (List Char)) : List (List Char) :=
  reduceIter p.length p

/-- `strings.Join(p, string(f.sep()))`. -/
def joinSep (c : Char) : List (List Char) → List Char
  | [] => []
  | [x] => x
  | x :: l => x ++ c :: joinSep c l

/-- `Format.Clean` (main.go): split off the volume, collapse repeated
separators, drop `"."` elements, remove inner `".."` pairs to convergence,
and reassemble; empty results become `"."`, a single empty element becomes
the bare separator (root). -/
def Format.Clean (f : Format) (s : List Char) : List Char :=
  let vs := f.SplitVolume s
  let vol := vs.1
  let s1 := vs.2
  if s1 = [] then vol ++ ['.']
  else
    let s2 := collapse f.sep s1
    let e := f.Elements s2
    let p := e.filter (fun u => u ≠ ['.'])
    let q := reduce p
    if q = [] then vol ++ ['.']
    else if q = [[]] then vol ++ [f.sep]
    else vol ++ joinSep f.sep q

/-- `NixPathEnvSuffix` (main.go). -/
def nixSuffix : List Char := str "_VOLUME_PATH"

/-- `WslRootfsEnvVar` (main.go). -/
def rootfsVar : List Char := str "WSL_ROOTFS_PATH"

/-- `UncPathEnvVar` (main.go). -/
def uncVar : List Char := str "WSL_UNC_PATH"

/-- The process environment, embedded as an association list of
(name, value) pairs; `os.Environ` iterates it in order and `os.LookupEnv`
finds the first binding.  Names are assumed not to contain `'='`, so the
`strings.IndexRune(e, '=')` parse in main.go recovers exactly these pairs. -/
abbrev Env := List (List Char × List Char)

/-- `os.LookupEnv`. -/
def lookupEnv (env : Env) (k : List Char) : Option (List Char) :=
  (env.find? (fun e => e.1 = k)).map (fun e => e.2)

/-- ASCII `strings.ToUpper` on one character. -/
def toUpperC (c : Char) : Char :=
  if 'a' ≤ c ∧ c ≤ 'z' then Char.ofNat (c.toNat - 32) else c

/-- ASCII `strings.ToUpper`. -/
def toUpperL (l : List Char) : List Char := l.map toUpperC

/-- `strings.ReplaceAll(s, string(a), string(b))` for one-character
pattern and replacement (the separator swap in `Format.Format`). -/
def sepSwap (a b : Char) (s : List Char) : List Char :=
  s.map (fun c => if c = a then b else c)

/-- `strings.Replace(s, pat, rep, 1)`: replace the first occurrence. -/
def replaceFirst (pat rep : List Char) : List Char → List Char
  | [] => if pat = [] then rep else []
  | c :: t =>
    if pat.isPrefixOf (c :: t) then rep ++ (c :: t).drop pat.length
    else c :: replaceFirst pat rep t

/-- `strings.Split(s, ";")` for a one-character delimiter (keeps empty
fields, like Go). -/
def splitOnSep (c : Char) : List Char → List (List Char)
  | [] => [[]]
  | a :: t =>
    if a = c then [] :: splitOnSep c t
    else
      match splitOnSep c t with
      | [] => [[a]]
      | e :: es => (a :: e) :: es

/-- `strings.SplitN(vm, "=", 2)` followed by the `len(m) == 2` check:
split at the first `'='`, or `none` when there is none. -/
def splitEq : List Char → Option (List Char × List Char)
  | [] => none
  | c :: t =>
    if c = '=' then some ([], t)
    else
      match splitEq t with
      | none => none
      | some (a, b) => some (c :: a, b)

/-- The `WSL_UNC_PATH` scan of the Unix→Windows branch (main.go lines
481-490): fold over the semicolon-separated `key=value` entries, keeping
the entry whose value is the longest strict improvement among prefixes of
`s`; the flag records whether any entry matched. -/
def uncFold (s : List Char) : List (List Char) → List Char × List Char × Bool →
    List Char × List Char × Bool
  | [], acc => acc
  | vm :: rest, (rk, rv, unc) =>
    match splitEq vm with
    | some (m0, m1) =>
      if m1.isPrefixOf s ∧ rv.length < m1.length then
        uncFold s rest (m0, m1, true)
      else uncFold s rest (rk, rv, unc)
    | none => uncFold s rest (rk, rv, unc)

/-- The `os.Environ()` scan of the Unix→Windows branch (main.go lines
494-503): fold over the environment keeping the binding whose key ends in
`_VOLUME_PATH`, whose raw value is nonempty (`len(e) > n+1`), and whose
cleaned value is the longest strict improvement among prefixes of `s`. -/
def envScan (f : Format) (s : List Char) : Env → List Char × List Char →
    List Char × List Char
  | [], acc => acc
  | (k, rawv) :: rest, (rk, rv) =>
    if rawv ≠ [] ∧ nixSuffix.isSuffixOf k ∧ (f.Clean rawv).isPrefixOf s ∧
        rv.length < (f.Clean rawv).length then
      envScan f s rest (k, f.Clean rawv)
    else envScan f s rest (rk, rv)

/-- The UNC lookup loop of the Windows→Unix branch (main.go lines 447-455):
find the entry whose key equals the volume up to ASCII case and substitute
its value for the volume. -/
def uncLook (v p : List Char) : List (List Char) → Option (List Char)
  | [] => none
  | vm :: rest =>
    match splitEq vm with
    | some (m0, m1) =>
      if toUpperL m0 = toUpperL v then some (m1 ++ p) else uncLook v p rest
    | none => uncLook v p rest

/-- Volume substitution of the Windows→Unix branch of `Format.Format`
(main.go lines 429-463): returns the path with the volume replaced by its
mount point, or the error of the corresponding early `return`. -/
def winToNixSubst (env : Env) (s : List Char) : Except (List Char) (List Char) :=
  let vp := Format.SplitVolume .Windows s
  match vp.1 with
  | v0 :: v1 :: vr =>
    if v1 = ':' ∧ isDriveLetter v0 then
      let e := toUpperC v0 :: nixSuffix
      match lookupEnv env e with
      | some dp => .ok (dp ++ vp.2)
      | none => .error (str "environment variable not set: " ++ e)
    else if 5 ≤ (v0 :: v1 :: vr).length then
      match vr with
      | v2 :: _ =>
        if v0 = '\\' ∧ v1 = '\\' ∧ v2 ≠ '\\' ∧ v2 ≠ '.' then
          match lookupEnv env uncVar with
          | some up =>
            match uncLook (v0 :: v1 :: vr) vp.2 (splitOnSep ';' up) with
            | some s' => .ok s'
            | none =>
              .error (str "UNC volume \"" ++ (v0 :: v1 :: vr) ++
                str "\" not found in environment variable: " ++ uncVar ++
                str "=\"" ++ up ++ str "\"")
          | none => .error (str "environment variable not set: " ++ uncVar)
        else .ok s
      | [] => .ok s
    else .ok s
  | _ => .ok s

/-- Mount-point substitution for an absolute path in the Unix→Windows
branch of `Format.Format` (main.go lines 478-514), after `abspath`
resolution: UNC table first, then the environment scan, then the rootfs
fallback (`x` is the `-e` flag disabling it).  The flag of the result is
`wsl` (rootfs fallback used). -/
def nixToWinAbs (env : Env) (s : List Char) (x : Bool) :
    Except (List Char) (List Char × Bool) :=
  let u :=
    match lookupEnv env uncVar with
    | some up => uncFold s (splitOnSep ';' up) ([], [], false)
    | none => ([], [], false)
  match u with
  | (rk, rv, true) => .ok (replaceFirst rv rk s, false)
  | (rk0, rv0, false) =>
    let kv := envScan .Unix s env (rk0, rv0)
    if kv.1 ≠ [] then
      .ok (replaceFirst kv.2 (kv.1.take 1 ++ [':']) s, false)
    else
      match lookupEnv env rootfsVar, x with
      | some up, false => .ok (up ++ '\\' :: s, true)
      | _, _ => .error (str "path substring not found in environment: " ++ s)

/-- `Format.Format` (main.go lines 417-547) with the recursion counter `z`
replaced by the remaining depth `w = 2 - z`: `z > 1` is exactly `w = 0`,
and the single recursive call (`z+1`) is `w-1`.  The live process
environment is the parameter `env`; `f.abspath` (filesystem symlink and
absolute-path resolution) is the oracle `resolve`.  Error values are the
strings produced by `fmt.Errorf`. -/
def FormatZ (env : Env) (resolve : List Char → List Char) :
    Nat → Format → Format → List Char → Bool →
    Except (List Char) (List Char × Bool)
  | 0, f, _, s, _ => .error (str "invalid path: " ++ f.Clean s)
  | w + 1, f, t, s, x =>
    let s := f.Clean s
    match f with
    | .Windows =>
      if t = .Unix then
        match winToNixSubst env s with
        | .error e => .error e
        | .ok s' => .ok (Format.Clean .Unix (sepSwap '\\' '/' s'), false)
      else .ok (s, false)
    | .Unix =>
      if t = .Windows then
        match s with
        | [] => .ok (Format.Clean .Windows (sepSwap '/' '\\' s), false)
        | c :: _ =>
          if c = '/' then
            -- absolute file path: abspath then mount-point substitution
            match nixToWinAbs env (resolve s) x with
            | .error e => .error e
            | .ok (s', w') =>
              .ok (Format.Clean .Windows (sepSwap '/' '\\' s'), w')
          else
            -- relative file path: recurse on the resolved absolute path
            match FormatZ env resolve w .Unix .Windows (resolve s) x with
            | .error e => .error e
            | .ok (p, wsl) =>
              if wsl then
                .ok (Format.Clean .Windows (sepSwap '/' '\\' p), true)
              else
                .ok (Format.Clean .Windows (sepSwap '/' '\\' s), false)
      else .ok (s, false)
    | .Any => .ok (s, false)

deriving instance DecidableEq for Except

/-- `Format.Format` (main.go): `f.Format(t, s, x, z)` under environment
`env` and path-resolution oracle `resolve`. -/
def Format.Format (env : Env) (resolve : List Char → List Char)
    (f t : Format) (s : List Char) (x : Bool) (z : Nat) :
    Except (List Char) (List Char × Bool) :=
  FormatZ env resolve (2 - z) f t s x

/-! Proof-support definitions: characterizations of the loops above. -/

/-- No two adjacent characters of the list both satisfy `p` (the state of a
string on which the separator-collapsing loop of `Clean` is a no-op). -/
def noAdjP (p : Char → Bool) : List Char → Bool
  | [] => true
  | [_] => true
  | a :: b :: t => !(p a && p b) && noAdjP p (b :: t)

/-- Prepend a character to the first element of an element list (creating a
singleton when there is none); the effect of one non-separator character on
the builder loop of `Elements`. -/
def consHead (c : Char) : List (List Char) → List (List Char)
  | [] => [[c]]
  | e :: es => (c :: e) :: es

/-- Structural characterization of `Format.Elements` (proved equal to it in
`Elements_eq_rec`). -/
def elementsRec (f : Format) : List Char → List (List Char)
  | [] => []
  | c :: t => if f.issep c then [] :: elementsRec f t else consHead c (elementsRec f t)

/-- An element list on which a `".."`-removal pass of `Clean` finds nothing
to remove: no element other than `".."` is immediately followed by `".."`. -/
def Reduced : List (List Char) → Prop
  | [] => True
  | [_] => True
  | a :: b :: t => ¬(a ≠ dd ∧ b = dd) ∧ Reduced (b :: t)

/-- A canonical sequence of path elements: nonempty, each element
nonempty, free of both separator characters, and neither `"."` nor
`".."`. -/
abbrev GoodElems (l : List (List Char)) : Prop :=
  l ≠ [] ∧ ∀ e ∈ l, e ≠ [] ∧ (∀ ch ∈ e, ch ≠ '/' ∧ ch ≠ '\\') ∧
    e ≠ ['.'] ∧ e ≠ dd

/-- Test environment: the single drive mapping `C_VOLUME_PATH=/mnt/c`. -/
def env1 : Env := [(str "C_VOLUME_PATH", str "/mnt/c")]

/-- Test environment of the longest-prefix requirement:
`C_VOLUME_PATH=/mnt/c` and `D_VOLUME_PATH=/mnt/backup`. -/
def env3 : Env :=
  [(str "C_VOLUME_PATH", str "/mnt/c"), (str "D_VOLUME_PATH", str "/mnt/backup")]

/-- Test environment with only the rootfs fallback mapping
`WSL_ROOTFS_PATH=C:\rootfs`. -/
def env5 : Env := [(str "WSL_ROOTFS_PATH", str "C:\\rootfs")]

/-! Theorems. -/

/-- C1: the `Clean` edge-case policy: `clean(Unix, "/a/../../b") = "/b"`
(a leading `..` climbing above the root of a rooted path is discarded),
`clean(Unix, "") = "."`, `clean(Windows, "C:") = "C:."`, and
`clean(Windows, "C:\") = "C:\"`. -/
theorem clean_edge_cases :
    Format.Clean .Unix (str "/a/../../b") = str "/b" ∧
    Format.Clean .Unix (str "") = str "." ∧
    Format.Clean .Windows (str "C:") = str "C:." ∧
    Format.Clean .Windows (str "C:\\") = str "C:\\" := by
  refine ⟨?_, ?_, ?_, ?_⟩ <;> decide

theorem takeShare_append : ∀ t : List Char, (takeShare t).1 ++ (takeShare t).2 = t
  | [] => rfl
  | c :: t => by
    unfold takeShare
    by_cases h : c = '\\' <;> simp [h, takeShare_append t]

theorem uncScan_append : ∀ (r v rest : List Char),
    uncScan r = some (v, rest) → v ++ rest = r
  | [], _, _, h => by simp [uncScan] at h
  | [_], _, _, h => by simp [uncScan] at h
  | a :: b :: t, v, rest, h => by
    unfold uncScan at h
    split at h
    · rename_i ha
      split at h
      · exact absurd h (by simp)
      · split at h
        · exact absurd h (by simp)
        · have h2 := Option.some.inj h
          rw [Prod.mk.injEq] at h2
          obtain ⟨hv, hrest⟩ := h2
          subst hv
          subst hrest
          have := takeShare_append t
          simp [ha, this]
    · split at h
      · exact absurd h (by simp)
      · rename_i v' rest' hrec
        have ih := uncScan_append (b :: t) v' rest' hrec
        have h2 := Option.some.inj h
        rw [Prod.mk.injEq] at h2
        obtain ⟨hv, hrest⟩ := h2
        subst hv
        subst hrest
        simp [← ih]

/-- C10: `SplitVolume` partitions its input: the returned volume and path
concatenate back to the original string, and the volume is empty for the
non-Windows formats. -/
theorem SplitVolume_partition (f : Format) (s : List Char) :
    (f.SplitVolume s).1 ++ (f.SplitVolume s).2 = s ∧
    (Format.SplitVolume .Unix s).1 = [] ∧
    (Format.SplitVolume .Any s).1 = [] := by
  refine ⟨?_, by simp [Format.SplitVolume], by simp [Format.SplitVolume]⟩
  unfold Format.SplitVolume
  split
  · simp
  · split
    · simp
    · simp
    · rename_i d c1 r
      split
      · rename_i hcond
        simp only [Bool.and_eq_true, decide_eq_true_eq] at hcond
        simp [hcond.1]
      · split
        · rename_i c2 r' heq
          split
          · split
            · rename_i v rest hscan
              have := uncScan_append r' v rest hscan
              simp [← this]
            · simp
          · simp
        · simp

/-- C9: the recursion guard of `Format.Format`: any call entered with
recursion counter `z > 1` immediately returns the invalid-path error (and
the embedding `FormatZ`, structurally recursive on the remaining depth
`2 - z`, witnesses that the translation terminates on every input). -/
theorem Format_recursion_guard (env : Env) (resolve : List Char → List Char)
    (f t : Format) (s : List Char) (x : Bool) (z : Nat) (h : 1 < z) :
    Format.Format env resolve f t s x z =
      .error (str "invalid path: " ++ f.Clean s) := by
  unfold Format.Format
  have hz : 2 - z = 0 := by omega
  rw [hz]
  rfl

/-- Witness for C9: at `z = 2` the guard fires on a concrete input. -/
theorem Format_recursion_guard_witness :
    1 < 2 ∧
      Format.Format env1 id .Unix .Windows (str "/etc") false 2 =
        .error (str "invalid path: " ++ Format.Clean .Unix (str "/etc")) :=
  ⟨by decide, Format_recursion_guard env1 id .Unix .Windows (str "/etc") false 2
    (by decide)⟩

/-! Lemmas about the separator-collapsing loop. -/

theorem collapseStep_eq_self (c : Char) :
    ∀ s, noAdjP (fun x => x = c) s = true → collapseStep c s = s
  | [], _ => rfl
  | [_], _ => rfl
  | a :: b :: t, h => by
    unfold noAdjP at h
    rw [Bool.and_eq_true, Bool.not_eq_true'] at h
    unfold collapseStep
    rw [if_neg (by simp [h.1]), collapseStep_eq_self c (b :: t) h.2]

theorem collapseStep_length_le (c : Char) :
    ∀ s, (collapseStep c s).length ≤ s.length
  | [] => le_refl _
  | [_] => le_refl _
  | a :: b :: t => by
    unfold collapseStep
    split
    · have := collapseStep_length_le c t
      simp only [List.length_cons]
      omega
    · have := collapseStep_length_le c (b :: t)
      simp only [List.length_cons] at *
      omega

theorem collapseStep_length_lt (c : Char) :
    ∀ s, noAdjP (fun x => x = c) s = false → (collapseStep c s).length < s.length
  | [], h => by simp [noAdjP] at h
  | [_], h => by simp [noAdjP] at h
  | a :: b :: t, h => by
    unfold noAdjP at h
    rw [Bool.and_eq_false_iff] at h
    unfold collapseStep
    by_cases hab : (a = c && b = c) = true
    · rw [if_pos hab]
      have := collapseStep_length_le c t
      simp only [List.length_cons]
      omega
    · rw [if_neg hab]
      have hf : noAdjP (fun x => x = c) (b :: t) = false := by
        rcases h with h | h
        · exact absurd (by simpa using h) hab
        · exact h
      have := collapseStep_length_lt c (b :: t) hf
      simp only [List.length_cons] at *
      omega

theorem collapseIter_noAdj (c : Char) :
    ∀ (fuel : Nat) (s : List Char), s.length ≤ fuel →
      noAdjP (fun x => x = c) (collapseIter c fuel s) = true
  | 0, s, h => by
    have : s = [] := List.eq_nil_of_length_eq_zero (by omega)
    subst this
    rfl
  | fuel + 1, s, h => by
    unfold collapseIter
    cases hna : noAdjP (fun x => x = c) s with
    | true =>
      rw [collapseStep_eq_self c s hna]
      simp [hna]
    | false =>
      have hlt := collapseStep_length_lt c s hna
      rw [if_neg (by omega)]
      exact collapseIter_noAdj c fuel _ (by omega)

theorem collapse_noADJ (c : Char) (s : List Char) :
    noAdjP (fun x => x = c) (collapse c s) = true := by
  unfold collapse
  split
  · next h =>
    rw [List.isEmpty_iff] at h
    subst h
    rfl
  · exact collapseIter_noAdj c s.length s le_rfl

theorem collapse_eq_self (c : Char) (s : List Char)
    (h : noAdjP (fun x => x = c) s = true) : collapse c s = s := by
  unfold collapse
  split
  · rfl
  · next hne =>
    rw [List.isEmpty_iff] at hne
    cases hl : s.length with
    | zero => exact absurd (List.eq_nil_of_length_eq_zero hl) hne
    | succ n =>
      unfold collapseIter
      rw [collapseStep_eq_self c s h]
      simp

/-! Lemmas about `Elements`. -/

theorem elemAux_eq (f : Format) : ∀ (s b : List Char),
    elemAux f b s =
      match elementsRec f s with
      | [] => if b.isEmpty then [] else [b]
      | e :: es => (b ++ e) :: es
  | [], b => rfl
  | c :: t, b => by
    unfold elemAux elementsRec
    cases hc : f.issep c with
    | true =>
      rw [elemAux_eq f t []]
      cases her : elementsRec f t <;> simp [consHead]
    | false =>
      rw [elemAux_eq f t (b ++ [c])]
      cases her : elementsRec f t <;> simp [consHead]

theorem Elements_eq_rec (f : Format) (s : List Char) :
    f.Elements s = elementsRec f s := by
  unfold Format.Elements
  rw [elemAux_eq f s []]
  cases her : elementsRec f s <;> simp

theorem elementsRec_sep_free (f : Format) :
    ∀ s, ∀ e ∈ elementsRec f s, ∀ ch ∈ e, f.issep ch = false
  | [], e, he => by simp [elementsRec] at he
  | c :: t, e, he => by
    unfold elementsRec at he
    cases hc : f.issep c with
    | true =>
      rw [hc] at he
      simp only [if_true, List.mem_cons] at he
      rcases he with he | he
      · subst he
        intro ch hch
        simp at hch
      · exact elementsRec_sep_free f t e he
    | false =>
      rw [hc] at he
      simp only [Bool.false_eq_true, if_false] at he
      cases her : elementsRec f t with
      | nil =>
        rw [her] at he
        simp only [consHead, List.mem_singleton] at he
        subst he
        intro ch hch
        simp only [List.mem_singleton] at hch
        subst hch
        exact hc
      | cons e' es =>
        rw [her] at he
        simp only [consHead, List.mem_cons] at he
        rcases he with he | he
        · subst he
          intro ch hch
          simp only [List.mem_cons] at hch
          rcases hch with hch | hch
          · subst hch
            exact hc
          · exact elementsRec_sep_free f t e' (by rw [her]; exact List.mem_cons_self _ _) ch hch
        · exact elementsRec_sep_free f t e (by rw [her]; exact List.mem_cons_of_mem _ he)

theorem noAdjP_tail (p : Char → Bool) (c : Char) (t : List Char)
    (h : noAdjP p (c :: t) = true) : noAdjP p t = true := by
  cases t with
  | nil => rfl
  | cons b t' =>
    unfold noAdjP at h
    rw [Bool.and_eq_true] at h
    exact h.2

theorem elementsRec_shape (f : Format) :
    ∀ s, noAdjP f.issep s = true →
      (∀ e ∈ (elementsRec f s).tail, e ≠ []) ∧
      ((∀ ch, s.head? = some ch → f.issep ch = false) →
        ∀ e ∈ elementsRec f s, e ≠ [])
  | [], _ => by simp [elementsRec]
  | c :: t, h => by
    have ht : noAdjP f.issep t = true := noAdjP_tail _ _ _ h
    have ih := elementsRec_shape f t ht
    unfold elementsRec
    cases hc : f.issep c with
    | true =>
      simp only [if_true, List.tail_cons]
      constructor
      · -- every element of `elementsRec f t` is nonempty since `t` cannot
        -- start with another separator
        apply ih.2
        intro ch hch
        cases t with
        | nil => simp at hch
        | cons t0 t' =>
          simp only [List.head?_cons, Option.some.injEq] at hch
          subst hch
          unfold noAdjP at h
          rw [Bool.and_eq_true, Bool.not_eq_true', Bool.and_eq_false_iff] at h
          rcases h.1 with h1 | h1
          · rw [hc] at h1
            exact absurd h1 (by simp)
          · exact h1
      · intro hhead
        have := hhead c (by rfl)
        rw [hc] at this
        exact absurd this (by simp)
    | false =>
      simp only [Bool.false_eq_true, if_false]
      cases her : elementsRec f t with
      | nil =>
        simp [consHead]
      | cons e' es =>
        simp only [consHead, List.tail_cons]
        constructor
        · intro e he
          exact ih.1 e (by rw [her]; exact he)
        · intro _ e he
          simp only [List.mem_cons] at he
          rcases he with he | he
          · subst he
            simp
          · exact ih.1 e (by rw [her]; exact he)

theorem elementsRec_single (f : Format) :
    ∀ x, x ≠ [] → (∀ ch ∈ x, f.issep ch = false) → elementsRec f x = [x]
  | [], h, _ => absurd rfl h
  | [c], _, hf => by
    have := hf c (by simp)
    simp [elementsRec, this, consHead]
  | c :: d :: t, _, hf => by
    have hc := hf c (by simp)
    have ih := elementsRec_single f (d :: t) (by simp)
      (fun ch hch => hf ch (List.mem_cons_of_mem _ hch))
    unfold elementsRec
    rw [hc]
    simp only [Bool.false_eq_true, if_false]
    rw [ih]
    rfl

theorem elementsRec_append_sep (f : Format) (u : Char) (hu : f.issep u = true) :
    ∀ (x r : List Char), (∀ ch ∈ x, f.issep ch = false) →
      elementsRec f (x ++ u :: r) = x :: elementsRec f r
  | [], r, _ => by simp [elementsRec, hu]
  | c :: x', r, hf => by
    have hc := hf c (by simp)
    have ih := elementsRec_append_sep f u hu x' r
      (fun ch hch => hf ch (List.mem_cons_of_mem _ hch))
    simp only [List.cons_append]
    rw [elementsRec]
    rw [hc]
    simp only [Bool.false_eq_true, if_false]
    rw [ih]
    rfl

theorem issep_sep (f : Format) : f.issep f.sep = true := by
  cases f <;> rfl

theorem elementsRec_joinSep (f : Format) :
    ∀ l, l ≠ [] → (∀ e ∈ l, ∀ ch ∈ e, f.issep ch = false) →
      (∀ e ∈ l.tail, e ≠ []) → l ≠ [[]] →
      elementsRec f (joinSep f.sep l) = l
  | [], h0, _, _, _ => absurd rfl h0
  | [x], _, h1, _, h3 => by
    have hx : x ≠ [] := by
      intro hx
      subst hx
      exact h3 rfl
    unfold joinSep
    exact elementsRec_single f x hx (h1 x (by simp))
  | x :: y :: t, _, h1, h2, _ => by
    have hy : y ≠ [] := h2 y (by simp)
    have ih := elementsRec_joinSep f (y :: t) (by simp)
      (fun e he => h1 e (List.mem_cons_of_mem _ he))
      (fun e he => h2 e (List.mem_cons_of_mem _ he))
      (fun hyt => hy (by injection hyt))
    unfold joinSep
    rw [elementsRec_append_sep f f.sep (issep_sep f) x (joinSep f.sep (y :: t))
      (h1 x (by simp)), ih]

/-! Lemmas about the `".."`-removal loop. -/

theorem passAux_reduced : ∀ (first : Bool) (p : List (List Char)),
    Reduced p → passAux first p = (p, true)
  | _, [], _ => rfl
  | _, [_], _ => rfl
  | first, a :: b :: t, h => by
    obtain ⟨h1, h2⟩ := h
    unfold passAux
    rw [if_neg h1, passAux_reduced false (b :: t) h2]

theorem passAux_done_eq : ∀ (first : Bool) (p : List (List Char)),
    (passAux first p).2 = true → (passAux first p).1 = p ∧ Reduced p
  | _, [], _ => ⟨rfl, trivial⟩
  | _, [_], _ => ⟨rfl, trivial⟩
  | first, a :: b :: t, h => by
    unfold passAux at h ⊢
    by_cases hc : a ≠ dd ∧ b = dd
    · rw [if_pos hc] at h
      simp at h
    · rw [if_neg hc] at h ⊢
      have ih := passAux_done_eq false (b :: t) h
      exact ⟨by rw [ih.1], hc, ih.2⟩

theorem passAux_sublist : ∀ (first : Bool) (p : List (List Char)),
    List.Sublist (passAux first p).1 p
  | _, [] => List.Sublist.refl _
  | _, [_] => List.Sublist.refl _
  | first, a :: b :: t => by
    unfold passAux
    by_cases hc : a ≠ dd ∧ b = dd
    · rw [if_pos hc]
      have ih := passAux_sublist false t
      split
      · exact (ih.cons b).cons₂ a
      · exact (ih.cons b).cons a
    · rw [if_neg hc]
      exact (passAux_sublist false (b :: t)).cons₂ a

theorem passAux_not_done_length : ∀ (first : Bool) (p : List (List Char)),
    (passAux first p).2 = false → (passAux first p).1.length < p.length
  | _, [], h => by simp [passAux] at h
  | _, [_], h => by simp [passAux] at h
  | first, a :: b :: t, h => by
    unfold passAux at h ⊢
    by_cases hc : a ≠ dd ∧ b = dd
    · rw [if_pos hc]
      have hle : (passAux false t).1.length ≤ t.length :=
        (passAux_sublist false t).length_le
      split <;> simp only [List.length_cons] <;> omega
    · rw [if_neg hc] at h ⊢
      have ih := passAux_not_done_length false (b :: t) h
      simp only [List.length_cons] at *
      omega

theorem reduceIter_reduced : ∀ (fuel : Nat) (p : List (List Char)),
    p.length ≤ fuel → Reduced (reduceIter fuel p)
  | 0, p, h => by
    have : p = [] := List.eq_nil_of_length_eq_zero (by omega)
    subst this
    trivial
  | fuel + 1, p, h => by
    unfold reduceIter
    cases hq : (passAux true p).2 with
    | true =>
      rw [if_pos rfl]
      have := passAux_done_eq true p hq
      rw [this.1]
      exact this.2
    | false =>
      rw [if_neg (by simp)]
      have hlt := passAux_not_done_length true p hq
      exact reduceIter_reduced fuel _ (by omega)

theorem reduceIter_sublist : ∀ (fuel : Nat) (p : List (List Char)),
    List.Sublist (reduceIter fuel p) p
  | 0, _ => List.Sublist.refl _
  | fuel + 1, p => by
    unfold reduceIter
    split
    · exact passAux_sublist true p
    · exact (reduceIter_sublist fuel _).trans (passAux_sublist true p)

theorem reduce_reduced (p : List (List Char)) : Reduced (reduce p) :=
  reduceIter_reduced p.length p le_rfl

theorem reduce_sublist (p : List (List Char)) : List.Sublist (reduce p) p :=
  reduceIter_sublist p.length p

theorem reduce_eq_self (p : List (List Char)) (h : Reduced p) : reduce p = p := by
  unfold reduce
  cases hl : p.length with
  | zero =>
    have : p = [] := List.eq_nil_of_length_eq_zero hl
    subst this
    rfl
  | succ n =>
    unfold reduceIter
    rw [passAux_reduced true p h]
    simp

/-- Only the head of a list with nonempty tail elements can be empty, and
this is preserved by sublists. -/
theorem tail_nonempty_of_sublist {q p : List (List Char)} (h : List.Sublist q p)
    (hp : ∀ e ∈ p.tail, e ≠ []) : ∀ e ∈ q.tail, e ≠ [] := by
  cases p with
  | nil =>
    have : q = [] := List.sublist_nil.mp h
    subst this
    simp
  | cons p0 ps =>
    rcases List.sublist_cons_iff.mp h with h' | ⟨r, hq, hr⟩
    · intro e he
      exact hp e (h'.subset (List.mem_of_mem_tail he))
    · subst hq
      intro e he
      exact hp e (hr.subset he)

/-! Gluing lemmas for `noAdjP`. -/

theorem noAdjP_of_all (p : Char → Bool) :
    ∀ w, (∀ ch ∈ w, p ch = false) → noAdjP p w = true
  | [], _ => rfl
  | [_], _ => rfl
  | a :: b :: t, h => by
    unfold noAdjP
    rw [Bool.and_eq_true, Bool.not_eq_true']
    exact ⟨by rw [h a (by simp)]; rfl,
      noAdjP_of_all p (b :: t) (fun ch hch => h ch (List.mem_cons_of_mem _ hch))⟩

theorem noAdjP_cons (p : Char → Bool) (a : Char) (r : List Char)
    (ha : p a = false) (hr : noAdjP p r = true) : noAdjP p (a :: r) = true := by
  cases r with
  | nil => rfl
  | cons b t =>
    unfold noAdjP
    rw [Bool.and_eq_true, Bool.not_eq_true']
    exact ⟨by rw [ha]; rfl, hr⟩

theorem noAdjP_sep_cons (p : Char → Bool) (c : Char) (r : List Char)
    (hr : noAdjP p r = true) (hh : ∀ ch, r.head? = some ch → p ch = false) :
    noAdjP p (c :: r) = true := by
  cases r with
  | nil => rfl
  | cons b t =>
    unfold noAdjP
    rw [Bool.and_eq_true, Bool.not_eq_true']
    exact ⟨by rw [hh b rfl]; simp, hr⟩

theorem noAdjP_append (p : Char → Bool) :
    ∀ (x r : List Char), (∀ ch ∈ x, p ch = false) → noAdjP p r = true →
      noAdjP p (x ++ r) = true
  | [], r, _, hr => hr
  | a :: x', r, hx, hr => by
    rw [List.cons_append]
    exact noAdjP_cons p a _ (hx a (by simp))
      (noAdjP_append p x' r (fun ch hch => hx ch (List.mem_cons_of_mem _ hch)) hr)

theorem joinSep_head? (c : Char) : ∀ (y : List Char) (t : List (List Char)),
    y ≠ [] → (joinSep c (y :: t)).head? = y.head?
  | y, [], hy => rfl
  | y, x :: t', hy => by
    unfold joinSep
    cases y with
    | nil => exact absurd rfl hy
    | cons y0 y' => rfl

theorem joinSep_noAdj (p : Char → Bool) (c : Char) :
    ∀ l, (∀ e ∈ l, ∀ ch ∈ e, p ch = false) → (∀ e ∈ l.tail, e ≠ []) →
      noAdjP p (joinSep c l) = true
  | [], _, _ => rfl
  | [x], h1, _ => noAdjP_of_all p x (h1 x (by simp))
  | x :: y :: t, h1, h2 => by
    have hy : y ≠ [] := h2 y (by simp)
    have ih := joinSep_noAdj p c (y :: t)
      (fun e he => h1 e (List.mem_cons_of_mem _ he))
      (fun e he => h2 e (List.mem_cons_of_mem _ he))
    show noAdjP p (x ++ c :: joinSep c (y :: t)) = true
    apply noAdjP_append p x _ (h1 x (by simp))
    apply noAdjP_sep_cons p c _ ih
    intro ch hch
    rw [joinSep_head? c y t hy] at hch
    exact h1 y (by simp) ch (List.mem_of_mem_head? hch)

theorem splitVolume_unix (s : List Char) :
    Format.SplitVolume .Unix s = ([], s) := by
  simp [Format.SplitVolume]

theorem splitVolume_any (s : List Char) :
    Format.SplitVolume .Any s = ([], s) := by
  simp [Format.SplitVolume]

/-- `Clean` is the identity on a reassembled canonical element list: no
separators inside elements, only the head possibly empty, no `"."`
elements, no removable `".."` pair, and a volume-free reassembled string. -/
theorem clean_fix (f : Format) (q : List (List Char))
    (hsep : ∀ e ∈ q, ∀ ch ∈ e, f.issep ch = false)
    (hne : ∀ e ∈ q.tail, e ≠ [])
    (hdot : ∀ e ∈ q, e ≠ ['.'])
    (hred : Reduced q)
    (h0 : q ≠ []) (h1 : q ≠ [[]])
    (hvol : f.SplitVolume (joinSep f.sep q) = ([], joinSep f.sep q)) :
    f.Clean (joinSep f.sep q) = joinSep f.sep q := by
  have hJne : joinSep f.sep q ≠ [] := by
    cases q with
    | nil => exact absurd rfl h0
    | cons x l =>
      cases l with
      | nil =>
        intro hx
        simp only [joinSep] at hx
        exact h1 (by rw [hx])
      | cons y t => simp [joinSep]
  have hchar : ∀ e ∈ q, ∀ ch ∈ e, ch ≠ f.sep := by
    intro e he ch hch hcs
    have hf := hsep e he ch hch
    rw [hcs, issep_sep f] at hf
    exact absurd hf (by simp)
  have hnoadj : noAdjP (fun x => x = f.sep) (joinSep f.sep q) = true := by
    apply joinSep_noAdj
    · intro e he ch hch
      exact decide_eq_false (hchar e he ch hch)
    · exact hne
  have hfilter : List.filter (fun u => u ≠ ['.']) q = q :=
    List.filter_eq_self.mpr (fun u hu => by simp [hdot u hu])
  simp only [Format.Clean, hvol, if_neg hJne,
    collapse_eq_self f.sep _ hnoadj, Elements_eq_rec,
    elementsRec_joinSep f q h0 hsep hne h1, hfilter,
    reduce_eq_self q hred, if_neg h0, if_neg h1, List.nil_append]

/-- C2 (amended): `Clean` is idempotent for the Unix format. -/
theorem clean_idem_unix (s : List Char) :
    Format.Clean .Unix (Format.Clean .Unix s) = Format.Clean .Unix s := by
  by_cases hs : s = []
  · subst hs
    decide
  · have hsv : Format.SplitVolume .Unix s = ([], s) := splitVolume_unix s
    have hbody : Format.Clean .Unix s =
        (if reduce ((Format.Elements .Unix
              (collapse (Format.sep .Unix) s)).filter (fun u => u ≠ ['.'])) = []
          then ['.']
          else if reduce ((Format.Elements .Unix
              (collapse (Format.sep .Unix) s)).filter (fun u => u ≠ ['.'])) = [[]]
          then [Format.sep .Unix]
          else joinSep (Format.sep .Unix)
            (reduce ((Format.Elements .Unix
              (collapse (Format.sep .Unix) s)).filter (fun u => u ≠ ['.'])))) := by
      simp only [Format.Clean, hsv, if_neg hs, List.nil_append]
    rw [hbody]
    by_cases hq0 : reduce ((Format.Elements .Unix
        (collapse (Format.sep .Unix) s)).filter (fun u => u ≠ ['.'])) = []
    · rw [if_pos hq0]
      decide
    · rw [if_neg hq0]
      by_cases hq1 : reduce ((Format.Elements .Unix
          (collapse (Format.sep .Unix) s)).filter (fun u => u ≠ ['.'])) = [[]]
      · rw [if_pos hq1]
        decide
      · rw [if_neg hq1]
        -- canonical-form case: apply `clean_fix` to the reduced element list
        have hsubf : List.Sublist
            ((Format.Elements .Unix (collapse (Format.sep .Unix) s)).filter
              (fun u => u ≠ ['.']))
            (Format.Elements .Unix (collapse (Format.sep .Unix) s)) :=
          List.filter_sublist _
        have hsubq : List.Sublist
            (reduce ((Format.Elements .Unix (collapse (Format.sep .Unix) s)).filter
              (fun u => u ≠ ['.'])))
            (Format.Elements .Unix (collapse (Format.sep .Unix) s)) :=
          (reduce_sublist _).trans hsubf
        have hnoadj : noAdjP (Format.issep .Unix)
            (collapse (Format.sep .Unix) s) = true :=
          collapse_noADJ (Format.sep .Unix) s
        have hshape := elementsRec_shape .Unix (collapse (Format.sep .Unix) s) hnoadj
        apply clean_fix .Unix
        · intro e he ch hch
          exact elementsRec_sep_free .Unix (collapse (Format.sep .Unix) s) e
            (by
              rw [← Elements_eq_rec]
              exact hsubq.subset he) ch hch
        · apply tail_nonempty_of_sublist hsubq
          rw [Elements_eq_rec]
          exact hshape.1
        · intro e he
          have := hsubf.subset
          have hmem := (reduce_sublist _).subset he
          have := List.mem_filter.mp hmem
          simpa using this.2
        · exact reduce_reduced _
        · exact hq0
        · exact hq1
        · exact splitVolume_unix _

/-- C2 (counterexample): `Clean` is not idempotent for the Windows format
(a UNC path with an empty remainder gains one `'.'` per application, the
re-parsed volume absorbing the appended dot) nor for the `Any` format
(doubled backslashes are split on but not collapsed, the separators being
rewritten to forward slashes only on the next application). -/
theorem clean_not_idem :
    Format.Clean .Windows (Format.Clean .Windows (str "\\\\h\\s")) ≠
      Format.Clean .Windows (str "\\\\h\\s") ∧
    Format.Clean .Any (Format.Clean .Any (str "a\\\\b")) ≠
      Format.Clean .Any (str "a\\\\b") := by
  refine ⟨?_, ?_⟩ <;> decide

/-- C7 (counterexample): on `"a//b"` (consecutive separators) `Elements`
returns `["a", "", "b"]`, an empty element in the interior of the sequence,
although the input is not rooted. -/
theorem elements_empty_interior :
    Format.Elements .Unix (str "a//b") = [['a'], [], ['b']] ∧
    [] ∈ (Format.Elements .Unix (str "a//b")).tail := by
  refine ⟨?_, ?_⟩ <;> decide

/-- C7 (amended): for every format `f` and every string `s` without two
adjacent separator characters, `Elements(f, s)` has no empty element in the
interior of the sequence, and its leading element is empty exactly when `s`
starts with a separator of `f` (a rooted path). -/
theorem elements_shape_noAdj (f : Format) (s : List Char)
    (h : noAdjP f.issep s = true) :
    (∀ e ∈ (f.Elements s).tail, e ≠ []) ∧
    ((f.Elements s).head? = some [] ↔
      ∃ ch, s.head? = some ch ∧ f.issep ch = true) := by
  rw [Elements_eq_rec]
  refine ⟨(elementsRec_shape f s h).1, ?_⟩
  cases s with
  | nil => simp [elementsRec]
  | cons c t =>
    unfold elementsRec
    cases hc : f.issep c with
    | true =>
      simp only [if_true, List.head?_cons, Option.some.injEq]
      constructor
      · intro _
        exact ⟨c, rfl, hc⟩
      · intro _
        trivial
    | false =>
      simp only [Bool.false_eq_true, if_false]
      constructor
      · intro hhd
        cases her : elementsRec f t with
        | nil =>
          rw [her] at hhd
          simp [consHead] at hhd
        | cons e' es =>
          rw [her] at hhd
          simp [consHead] at hhd
      · rintro ⟨ch, hch, hsep'⟩
        simp only [List.head?_cons, Option.some.injEq] at hch
        subst hch
        rw [hc] at hsep'
        exact absurd hsep' (by simp)

/-- Witness for C7 (amended) at `f = Unix`, `s = "/a/b"`. -/
theorem elements_shape_noAdj_witness :
    noAdjP (Format.issep .Unix) (str "/a/b") = true ∧
    ((∀ e ∈ (Format.Elements .Unix (str "/a/b")).tail, e ≠ []) ∧
      ((Format.Elements .Unix (str "/a/b")).head? = some [] ↔
        ∃ ch, (str "/a/b").head? = some ch ∧ Format.issep .Unix ch = true)) :=
  ⟨by decide, elements_shape_noAdj .Unix (str "/a/b") (by decide)⟩

/-- C8 (counterexample): a UNC share segment beginning with `'.'` makes the
UNC match fail in `SplitVolume` (the `s[n] == '.'` break), so
`"\\host\.share\x"` yields the empty volume, not `"\\host\.share"`. -/
theorem splitVolume_dot_share :
    Format.SplitVolume .Windows (str "\\\\host\\.share\\x") =
      ([], str "\\\\host\\.share\\x") ∧
    ([], str "\\\\host\\.share\\x") ≠
      ((str "\\\\host\\.share" : List Char), (str "\\x" : List Char)) := by
  refine ⟨?_, ?_⟩ <;> decide

theorem takeShare_split : ∀ (sh rest : List Char),
    (∀ ch ∈ sh, ch ≠ '\\') → (rest = [] ∨ rest.head? = some '\\') →
    takeShare (sh ++ rest) = (sh, rest)
  | [], rest, _, hr => by
    rcases hr with hr | hr
    · subst hr
      rfl
    · cases rest with
      | nil => simp at hr
      | cons r0 r' =>
        simp only [List.head?_cons, Option.some.injEq] at hr
        subst hr
        simp [takeShare]
  | c :: sh', rest, hsep, hr => by
    have hc : c ≠ '\\' := hsep c (by simp)
    have ih := takeShare_split sh' rest
      (fun ch hch => hsep ch (List.mem_cons_of_mem _ hch)) hr
    simp only [List.cons_append]
    unfold takeShare
    rw [if_neg hc, ih]

theorem uncScan_concat : ∀ (htail share rest : List Char),
    (∀ ch ∈ htail, ch ≠ '\\') → share ≠ [] →
    share.head? ≠ some '.' → (∀ ch ∈ share, ch ≠ '\\') →
    (rest = [] ∨ rest.head? = some '\\') →
    uncScan (htail ++ '\\' :: share ++ rest) =
      some (htail ++ '\\' :: share, rest)
  | [], share, rest, _, hs0, hsdot, hssep, hr => by
    cases share with
    | nil => exact absurd rfl hs0
    | cons b sh' =>
      have hb : b ≠ '\\' := hssep b (by simp)
      have hbdot : b ≠ '.' := by
        intro hbe
        exact hsdot (by rw [hbe]; rfl)
      simp only [List.nil_append, List.cons_append]
      unfold uncScan
      rw [if_pos rfl, if_neg hb, if_neg hbdot,
        takeShare_split sh' rest
          (fun ch hch => hssep ch (List.mem_cons_of_mem _ hch)) hr]
  | a :: ht', share, rest, hhsep, hs0, hsdot, hssep, hr => by
    have ha : a ≠ '\\' := hhsep a (by simp)
    have ih := uncScan_concat ht' share rest
      (fun ch hch => hhsep ch (List.mem_cons_of_mem _ hch)) hs0 hsdot hssep hr
    have hne : ht' ++ '\\' :: share ++ rest ≠ [] := by simp
    simp only [List.cons_append]
    cases hmatch : ht' ++ '\\' :: share ++ rest with
    | nil => exact absurd hmatch hne
    | cons m0 mt =>
      unfold uncScan
      rw [hmatch] at ih
      rw [if_neg ha, ih]

/-- C8 (amended): the UNC rule of `SplitVolume` with the dot-share failure
added: when the third character (the host's first) is neither a separator
nor `'.'`, the host is scanned to the next separator; the match fails when
the character after that separator is a separator (`\\host\\x`, reserved
device-path shape) — and also when it is `'.'` (`\\host\.share\x`);
otherwise the share is collected up to the next separator or end of string,
the volume is the substring through the share, and the remainder is the
rest including its leading separator. -/
theorem splitVolume_unc (host share rest : List Char)
    (hh0 : host ≠ []) (hhsep : ∀ ch ∈ host, ch ≠ '\\')
    (hh1 : host.head? ≠ some '.')
    (hs0 : share ≠ []) (hssep : ∀ ch ∈ share, ch ≠ '\\')
    (hsdot : share.head? ≠ some '.')
    (hr : rest = [] ∨ rest.head? = some '\\') :
    Format.SplitVolume .Windows
        (('\\' :: '\\' :: host) ++ '\\' :: share ++ rest) =
      (('\\' :: '\\' :: host) ++ '\\' :: share, rest) ∧
    Format.SplitVolume .Windows (str "\\\\host\\\\x") =
      ([], str "\\\\host\\\\x") ∧
    Format.SplitVolume .Windows (str "\\\\host\\.share\\x") =
      ([], str "\\\\host\\.share\\x") := by
  refine ⟨?_, by decide, by decide⟩
  cases host with
  | nil => exact absurd rfl hh0
  | cons h0 htail =>
    have hh0' : h0 ≠ '\\' := hhsep h0 (by simp)
    have hh0dot : h0 ≠ '.' := by
      intro hbe
      exact hh1 (by rw [hbe]; rfl)
    have hscan := uncScan_concat htail share rest
      (fun ch hch => hhsep ch (List.mem_cons_of_mem _ hch)) hs0 hsdot hssep hr
    have hlen : 2 ≤ (htail ++ '\\' :: share ++ rest).length := by
      cases share with
      | nil => exact absurd rfl hs0
      | cons b sh' => simp; omega
    simp only [List.cons_append]
    unfold Format.SplitVolume
    rw [if_neg (by simp)]
    simp only []
    rw [if_neg (by simp)]
    rw [if_pos (by
      rw [Bool.and_eq_true, Bool.and_eq_true]
      refine ⟨⟨by simpa using hlen, ?_⟩, ?_⟩ <;> simp [hh0', hh0dot])]
    rw [hscan]

/-- Witness for C8 (amended): `\\host\share\x` splits into volume
`\\host\share` and remainder `\x`. -/
theorem splitVolume_unc_witness :
    (str "host" ≠ [] ∧ (∀ ch ∈ str "host", ch ≠ '\\') ∧
      (str "host").head? ≠ some '.' ∧
      str "share" ≠ [] ∧ (∀ ch ∈ str "share", ch ≠ '\\') ∧
      (str "share").head? ≠ some '.' ∧
      (str "\\x" = [] ∨ (str "\\x").head? = some '\\')) ∧
    (Format.SplitVolume .Windows
        (('\\' :: '\\' :: str "host") ++ '\\' :: str "share" ++ str "\\x") =
      (('\\' :: '\\' :: str "host") ++ '\\' :: str "share", str "\\x") ∧
    Format.SplitVolume .Windows (str "\\\\host\\\\x") =
      ([], str "\\\\host\\\\x") ∧
    Format.SplitVolume .Windows (str "\\\\host\\.share\\x") =
      ([], str "\\\\host\\.share\\x")) :=
  ⟨by decide, splitVolume_unc (str "host") (str "share") (str "\\x")
    (by decide) (by decide) (by decide) (by decide) (by decide) (by decide)
    (by decide)⟩

/-- C5: Unix→Windows translation of an absolute path matching no
mount-point mapping: with rootfs fallback allowed (`x = false`) and
`WSL_ROOTFS_PATH=C:\rootfs` set, `"/etc"` maps to `"C:\rootfs\etc"` with
the fallback flag set; with fallback disabled (`x = true`, the `-e` flag)
the same call fails with the no-mapping-found error.  The hypothesis pins
the `abspath` oracle on the input (no symlink indirection). -/
theorem rootfs_fallback (resolve : List Char → List Char)
    (h : resolve (str "/etc") = str "/etc") :
    Format.Format env5 resolve .Unix .Windows (str "/etc") false 0 =
      .ok (str "C:\\rootfs\\etc", true) ∧
    Format.Format env5 resolve .Unix .Windows (str "/etc") true 0 =
      .error (str "path substring not found in environment: /etc") := by
  constructor
  · have h1 : Format.Format env5 resolve .Unix .Windows (str "/etc") false 0 =
        FormatZ env5 resolve 2 .Unix .Windows (str "/etc") false := rfl
    rw [h1]
    unfold FormatZ
    simp only []
    rw [show Format.Clean .Unix (str "/etc") = str "/etc" from by decide]
    rw [h]
    rfl
  · have h1 : Format.Format env5 resolve .Unix .Windows (str "/etc") true 0 =
        FormatZ env5 resolve 2 .Unix .Windows (str "/etc") true := rfl
    rw [h1]
    unfold FormatZ
    simp only []
    rw [show Format.Clean .Unix (str "/etc") = str "/etc" from by decide]
    rw [h]
    rfl

/-- Witness for C5 with the identity resolution oracle. -/
theorem rootfs_fallback_witness :
    id (str "/etc") = str "/etc" ∧
    (Format.Format env5 id .Unix .Windows (str "/etc") false 0 =
        .ok (str "C:\\rootfs\\etc", true) ∧
      Format.Format env5 id .Unix .Windows (str "/etc") true 0 =
        .error (str "path substring not found in environment: /etc")) :=
  ⟨rfl, rootfs_fallback id rfl⟩

theorem envScan_acc_le (f : Format) (s : List Char) :
    ∀ (env : Env) (acc : List Char × List Char),
      acc.2.length ≤ (envScan f s env acc).2.length
  | [], _ => le_rfl
  | e :: rest, acc => by
    obtain ⟨k, v⟩ := e
    obtain ⟨rk, rv⟩ := acc
    unfold envScan
    split
    · rename_i hcond
      have hrec := envScan_acc_le f s rest (k, f.Clean v)
      have hle : rv.length ≤ (f.Clean v).length := le_of_lt hcond.2.2.2
      exact le_trans hle hrec
    · exact envScan_acc_le f s rest (rk, rv)

theorem envScan_le (f : Format) (s : List Char) :
    ∀ (env : Env) (acc : List Char × List Char) (k v : List Char),
      (k, v) ∈ env → v ≠ [] → nixSuffix.isSuffixOf k = true →
      (f.Clean v).isPrefixOf s = true →
      (f.Clean v).length ≤ (envScan f s env acc).2.length
  | [], _, k, v, hmem, _, _, _ => absurd hmem (by simp)
  | e :: rest, acc, k, v, hmem, hv, hsuf, hpre => by
    obtain ⟨rk, rv⟩ := acc
    rcases List.mem_cons.mp hmem with heq | hmem'
    · subst heq
      unfold envScan
      split
      · have := envScan_acc_le f s rest (k, f.Clean v)
        simpa using this
      · rename_i hcond
        have hnlt : ¬(rv.length < (f.Clean v).length) := by
          intro hlt
          exact hcond ⟨hv, hsuf, hpre, hlt⟩
        have := envScan_acc_le f s rest (rk, rv)
        simp only at this
        omega
    · obtain ⟨k', v'⟩ := e
      unfold envScan
      split
      · exact envScan_le f s rest _ k v hmem' hv hsuf hpre
      · exact envScan_le f s rest _ k v hmem' hv hsuf hpre

/-- C3: in the Unix→Windows environment scan, every mapping whose key ends
in `_VOLUME_PATH` and whose cleaned value is a prefix of the path is beaten
only by a value at least as long (longest prefix wins); concretely, with
`C_VOLUME_PATH=/mnt/c` and `D_VOLUME_PATH=/mnt/backup`, translating
`"/mnt/backup/andrew/file"` yields `"D:\andrew\file"` and not
`"C:\backup\andrew\file"`. -/
theorem longest_mount_wins :
    (∀ (env : Env) (s k v : List Char), (k, v) ∈ env → v ≠ [] →
      nixSuffix.isSuffixOf k = true →
      (Format.Clean .Unix v).isPrefixOf s = true →
      (Format.Clean .Unix v).length ≤
        (envScan .Unix s env ([], [])).2.length) ∧
    Format.Format env3 id .Unix .Windows (str "/mnt/backup/andrew/file")
        false 0 = .ok (str "D:\\andrew\\file", false) ∧
    Format.Format env3 id .Unix .Windows (str "/mnt/backup/andrew/file")
        false 0 ≠ .ok (str "C:\\backup\\andrew\\file", false) := by
  refine ⟨?_, by decide, by decide⟩
  intro env s k v hmem hv hsuf hpre
  exact envScan_le .Unix s env ([], []) k v hmem hv hsuf hpre

/-- Witness for C3: the `D_VOLUME_PATH` mapping is a matching candidate
whose cleaned value length bounds the scan result from below. -/
theorem longest_mount_wins_witness :
    ((str "D_VOLUME_PATH", str "/mnt/backup") ∈ env3 ∧
      str "/mnt/backup" ≠ [] ∧
      nixSuffix.isSuffixOf (str "D_VOLUME_PATH") = true ∧
      (Format.Clean .Unix (str "/mnt/backup")).isPrefixOf
        (str "/mnt/backup/andrew/file") = true) ∧
    (Format.Clean .Unix (str "/mnt/backup")).length ≤
      (envScan .Unix (str "/mnt/backup/andrew/file") env3 ([], [])).2.length :=
  ⟨by decide, longest_mount_wins.1 env3 (str "/mnt/backup/andrew/file")
    (str "D_VOLUME_PATH") (str "/mnt/backup")
    (by decide) (by decide) (by decide) (by decide)⟩

/-- C4: Windows→Unix translation of a path whose volume is a drive letter
`d` succeeds exactly when the environment defines `toupper(d)_VOLUME_PATH`:
if defined with value `dp`, the result substitutes `dp` for the volume and
converts separators; if absent, it fails with an error naming that
variable.  Concretely, with `C_VOLUME_PATH=/mnt/c`,
`"C:\Windows\System32\.."` translates to `"/mnt/c/Windows"`, and with an
empty environment the same call fails naming `C_VOLUME_PATH`. -/
theorem drive_volume_lookup :
    (∀ (env : Env) (resolve : List Char → List Char) (s p : List Char)
        (x : Bool) (d : Char) (dp : List Char),
      isDriveLetter d = true →
      Format.SplitVolume .Windows (Format.Clean .Windows s) = ([d, ':'], p) →
      lookupEnv env (toUpperC d :: nixSuffix) = some dp →
      Format.Format env resolve .Windows .Unix s x 0 =
        .ok (Format.Clean .Unix (sepSwap '\\' '/' (dp ++ p)), false)) ∧
    (∀ (env : Env) (resolve : List Char → List Char) (s p : List Char)
        (x : Bool) (d : Char),
      isDriveLetter d = true →
      Format.SplitVolume .Windows (Format.Clean .Windows s) = ([d, ':'], p) →
      lookupEnv env (toUpperC d :: nixSuffix) = none →
      Format.Format env resolve .Windows .Unix s x 0 =
        .error (str "environment variable not set: " ++
          (toUpperC d :: nixSuffix))) ∧
    Format.Format env1 id .Windows .Unix (str "C:\\Windows\\System32\\..")
        false 0 = .ok (str "/mnt/c/Windows", false) ∧
    Format.Format [] id .Windows .Unix (str "C:\\Windows") false 0 =
      .error (str "environment variable not set: C_VOLUME_PATH") := by
  refine ⟨?_, ?_, by decide, by decide⟩
  · intro env resolve s p x d dp hd hsplit hlook
    have h1 : Format.Format env resolve .Windows .Unix s x 0 =
        FormatZ env resolve 2 .Windows .Unix s x := rfl
    rw [h1]
    unfold FormatZ
    simp only [if_true]
    unfold winToNixSubst
    rw [hsplit]
    simp only []
    rw [if_pos ⟨trivial, hd⟩, hlook]
  · intro env resolve s p x d hd hsplit hlook
    have h1 : Format.Format env resolve .Windows .Unix s x 0 =
        FormatZ env resolve 2 .Windows .Unix s x := rfl
    rw [h1]
    unfold FormatZ
    simp only [if_true]
    unfold winToNixSubst
    rw [hsplit]
    simp only []
    rw [if_pos ⟨trivial, hd⟩, hlook]

/-- Witness for C4 at `s = "C:\x"`, `env = env1`. -/
theorem drive_volume_lookup_witness :
    (isDriveLetter 'C' = true ∧
      Format.SplitVolume .Windows (Format.Clean .Windows (str "C:\\x")) =
        (['C', ':'], str "\\x") ∧
      lookupEnv env1 (toUpperC 'C' :: nixSuffix) = some (str "/mnt/c")) ∧
    Format.Format env1 id .Windows .Unix (str "C:\\x") false 0 =
      .ok (Format.Clean .Unix (sepSwap '\\' '/' (str "/mnt/c" ++ str "\\x")),
        false) :=
  ⟨by decide, drive_volume_lookup.1 env1 id (str "C:\\x") (str "\\x") false 'C'
    (str "/mnt/c") (by decide) (by decide) (by decide)⟩

/-- C6 (counterexample): with `C_VOLUME_PATH=/mnt/c`, round-tripping the
mount point / volume root itself fails in both directions.  Unix source:
`"/mnt/c"` maps to `"C:"`, which `Clean` turns into `"C:."`, and
translating back appends the dot to the mount point, yielding `"/mnt/c."`
instead of `clean(Unix, "/mnt/c") = "/mnt/c"`.  Windows source: `"C:\"`
maps to `"/mnt/c"`, and translating back yields `"C:."` instead of
`clean(Windows, "C:\") = "C:\"`. -/
theorem roundtrip_mount_root :
    (Format.Format env1 id .Unix .Windows (str "/mnt/c") false 0 =
        .ok (str "C:.", false) ∧
      Format.Format env1 id .Windows .Unix (str "C:.") false 0 =
        .ok (str "/mnt/c.", false) ∧
      str "/mnt/c." ≠ Format.Clean .Unix (str "/mnt/c")) ∧
    (Format.Format env1 id .Windows .Unix (str "C:\\") false 0 =
        .ok (str "/mnt/c", false) ∧
      Format.Format env1 id .Unix .Windows (str "/mnt/c") false 0 =
        .ok (str "C:.", false) ∧
      str "C:." ≠ Format.Clean .Windows (str "C:\\")) := by
  refine ⟨⟨by decide, by decide, by decide⟩, by decide, by decide, by decide⟩

theorem sepSwap_id (a b : Char) : ∀ w, (∀ ch ∈ w, ch ≠ a) → sepSwap a b w = w
  | [], _ => rfl
  | c :: t, h => by
    unfold sepSwap
    simp only [List.map_cons]
    rw [if_neg (h c (by simp))]
    have := sepSwap_id a b t (fun ch hch => h ch (List.mem_cons_of_mem _ hch))
    unfold sepSwap at this
    rw [this]

/-- Unfolding of the Unix→Windows absolute branch of the translator. -/
theorem FormatZ_unix_abs (env : Env) (resolve : List Char → List Char)
    (s : List Char) (x : Bool)
    (h0 : Format.Clean .Unix s = s) (hhead : s.head? = some '/')
    (hres : resolve s = s) :
    FormatZ env resolve 2 .Unix .Windows s x =
      (match nixToWinAbs env s x with
      | .error e => .error e
      | .ok (s', w') =>
        .ok (Format.Clean .Windows (sepSwap '/' '\\' s'), w')) := by
  unfold FormatZ
  simp only []
  rw [h0, hres]
  cases s with
  | nil => simp at hhead
  | cons c t =>
    simp only [List.head?_cons, Option.some.injEq] at hhead
    subst hhead
    simp only [if_true]

theorem isPrefixOf_append_self : ∀ (l r : List Char),
    l.isPrefixOf (l ++ r) = true
  | [], r => by simp [List.isPrefixOf]
  | c :: t, r => by
    have ih := isPrefixOf_append_self t r
    simp only [List.cons_append, List.isPrefixOf, beq_self_eq_true,
      Bool.true_and]
    exact ih

theorem isSuffixOf_cons_self (a : Char) (l : List Char) :
    l.isSuffixOf (a :: l) = true := by
  unfold List.isSuffixOf
  rw [List.reverse_cons]
  exact isPrefixOf_append_self _ _

theorem replaceFirst_prefix (pat rep s : List Char)
    (h : pat.isPrefixOf s = true) :
    replaceFirst pat rep s = rep ++ s.drop pat.length := by
  cases s with
  | nil =>
    have hp : pat = [] := by
      cases pat with
      | nil => rfl
      | cons c t => simp [List.isPrefixOf] at h
    subst hp
    simp [replaceFirst]
  | cons c t =>
    unfold replaceFirst
    rw [if_pos h]

theorem driveLetter_ne (d : Char) (hd : isDriveLetter d = true) :
    d ≠ '/' ∧ d ≠ '\\' :=
  ⟨fun h => by rw [h] at hd; exact absurd hd (by decide),
    fun h => by rw [h] at hd; exact absurd hd (by decide)⟩

theorem reduced_of_no_dd : ∀ l, (∀ e ∈ l, e ≠ dd) → Reduced l
  | [], _ => trivial
  | [_], _ => trivial
  | a :: b :: t, h =>
    ⟨fun hp => (h b (by simp)) hp.2,
      reduced_of_no_dd (b :: t) (fun e he => h e (List.mem_cons_of_mem _ he))⟩

theorem joinSep_nil_cons (c : Char) :
    ∀ l, l ≠ [] → joinSep c ([] :: l) = c :: joinSep c l
  | [], h => absurd rfl h
  | _ :: _, _ => rfl

theorem joinSep_append (c : Char) : ∀ (l1 l2 : List (List Char)),
    l1 ≠ [] → l2 ≠ [] →
    joinSep c (l1 ++ l2) = joinSep c l1 ++ c :: joinSep c l2
  | [], _, h1, _ => absurd rfl h1
  | [x], l2, _, h2 => by
    cases l2 with
    | nil => exact absurd rfl h2
    | cons y t => rfl
  | x :: y :: t, l2, _, h2 => by
    have ih := joinSep_append c (y :: t) l2 (by simp) h2
    show x ++ c :: joinSep c ((y :: t) ++ l2) =
      (x ++ c :: joinSep c (y :: t)) ++ c :: joinSep c l2
    rw [ih]
    simp

theorem joinSep_swap (a b : Char) : ∀ l,
    (∀ e ∈ l, ∀ ch ∈ e, ch ≠ a) →
    sepSwap a b (joinSep a l) = joinSep b l
  | [], _ => rfl
  | [x], h => sepSwap_id a b x (h x (by simp))
  | x :: y :: t, h => by
    have ih := joinSep_swap a b (y :: t)
      (fun e he => h e (List.mem_cons_of_mem _ he))
    have hx : sepSwap a b x = x := sepSwap_id a b x (h x (by simp))
    show sepSwap a b (x ++ a :: joinSep a (y :: t)) = x ++ b :: joinSep b (y :: t)
    unfold sepSwap at hx ih ⊢
    rw [List.map_append, List.map_cons, if_pos rfl, hx, ih]

theorem joinSep_mem (c : Char) : ∀ (l : List (List Char)) (ch : Char),
    ch ∈ joinSep c l → ch = c ∨ ∃ e ∈ l, ch ∈ e
  | [], ch, h => by simp [joinSep] at h
  | [x], ch, h => by
    unfold joinSep at h
    exact .inr ⟨x, by simp, h⟩
  | x :: y :: t, ch, h => by
    unfold joinSep at h
    rcases List.mem_append.mp h with h | h
    · exact .inr ⟨x, by simp, h⟩
    · rcases List.mem_cons.mp h with h | h
      · exact .inl h
      · rcases joinSep_mem c (y :: t) ch h with h | ⟨e, he, hche⟩
        · exact .inl h
        · exact .inr ⟨e, List.mem_cons_of_mem _ he, hche⟩

theorem splitVolume_drive (d : Char) (hd : isDriveLetter d = true)
    (r : List Char) :
    Format.SplitVolume .Windows (d :: ':' :: r) = ([d, ':'], r) := by
  unfold Format.SplitVolume
  rw [if_neg (by simp)]
  simp only []
  rw [if_pos (by simp [hd])]

/-- `clean_fix` generalized to a nonempty volume: `Clean` is the identity
on a volume followed by a reassembled canonical element list, provided
`SplitVolume` re-extracts exactly that volume. -/
theorem clean_vol_fix (f : Format) (vol : List Char) (q : List (List Char))
    (hsep : ∀ e ∈ q, ∀ ch ∈ e, f.issep ch = false)
    (hne : ∀ e ∈ q.tail, e ≠ [])
    (hdot : ∀ e ∈ q, e ≠ ['.'])
    (hred : Reduced q)
    (h0 : q ≠ []) (h1 : q ≠ [[]])
    (hvol : f.SplitVolume (vol ++ joinSep f.sep q) =
      (vol, joinSep f.sep q)) :
    f.Clean (vol ++ joinSep f.sep q) = vol ++ joinSep f.sep q := by
  have hJne : joinSep f.sep q ≠ [] := by
    cases q with
    | nil => exact absurd rfl h0
    | cons x l =>
      cases l with
      | nil =>
        intro hx
        simp only [joinSep] at hx
        exact h1 (by rw [hx])
      | cons y t => simp [joinSep]
  have hchar : ∀ e ∈ q, ∀ ch ∈ e, ch ≠ f.sep := by
    intro e he ch hch hcs
    have hf := hsep e he ch hch
    rw [hcs, issep_sep f] at hf
    exact absurd hf (by simp)
  have hnoadj : noAdjP (fun x => x = f.sep) (joinSep f.sep q) = true := by
    apply joinSep_noAdj
    · intro e he ch hch
      exact decide_eq_false (hchar e he ch hch)
    · exact hne
  have hfilter : List.filter (fun u => u ≠ ['.']) q = q :=
    List.filter_eq_self.mpr (fun u hu => by simp [hdot u hu])
  simp only [Format.Clean, hvol, if_neg hJne,
    collapse_eq_self f.sep _ hnoadj, Elements_eq_rec,
    elementsRec_joinSep f q h0 hsep hne h1, hfilter,
    reduce_eq_self q hred, if_neg h0, if_neg h1]

theorem lookupEnv_single_eq (k v : List Char) :
    lookupEnv [(k, v)] k = some v := by
  simp [lookupEnv, List.find?]

theorem lookupEnv_single_ne (k k' v : List Char) (h : k' ≠ k) :
    lookupEnv [(k, v)] k' = none := by
  simp [lookupEnv, List.find?, Ne.symm h]

theorem issep_false (f : Format) (ch : Char) (h1 : ch ≠ '/')
    (h2 : ch ≠ '\\') : f.issep ch = false := by
  cases f <;> simp [Format.issep, h1, h2]

/-- `Clean` is the identity on a volume followed by a rooted canonical
element sequence. -/
theorem clean_rooted (f : Format) (vol : List Char) (l : List (List Char))
    (h0 : l ≠ [])
    (hE : ∀ e ∈ l, e ≠ [] ∧ (∀ ch ∈ e, ch ≠ '/' ∧ ch ≠ '\\') ∧
      e ≠ ['.'] ∧ e ≠ dd)
    (hvol : f.SplitVolume (vol ++ joinSep f.sep ([] :: l)) =
      (vol, joinSep f.sep ([] :: l))) :
    f.Clean (vol ++ joinSep f.sep ([] :: l)) =
      vol ++ joinSep f.sep ([] :: l) :=
  clean_vol_fix f vol ([] :: l)
    (fun e he ch hch => by
      rcases List.mem_cons.mp he with h | h
      · subst h
        simp at hch
      · exact issep_false f ch ((hE e h).2.1 ch hch).1 ((hE e h).2.1 ch hch).2)
    (fun e he => (hE e he).1)
    (fun e he => by
      rcases List.mem_cons.mp he with h | h
      · subst h
        decide
      · exact (hE e h).2.2.1)
    (reduced_of_no_dd _ (fun e he => by
      rcases List.mem_cons.mp he with h | h
      · subst h
        decide
      · exact (hE e h).2.2.2))
    (by simp)
    (fun h => h0 (by injection h))
    hvol

theorem clean_rooted_unix (l : List (List Char)) (h0 : l ≠ [])
    (hE : ∀ e ∈ l, e ≠ [] ∧ (∀ ch ∈ e, ch ≠ '/' ∧ ch ≠ '\\') ∧
      e ≠ ['.'] ∧ e ≠ dd) :
    Format.Clean .Unix ('/' :: joinSep '/' l) = '/' :: joinSep '/' l := by
  have hJ : joinSep (Format.sep .Unix) ([] :: l) = '/' :: joinSep '/' l :=
    joinSep_nil_cons '/' l h0
  have h := clean_rooted .Unix [] l h0 hE
    (by rw [List.nil_append]; exact splitVolume_unix _)
  rw [List.nil_append, hJ] at h
  exact h

theorem clean_rooted_windows (d : Char) (hd : isDriveLetter d = true)
    (l : List (List Char)) (h0 : l ≠ [])
    (hE : ∀ e ∈ l, e ≠ [] ∧ (∀ ch ∈ e, ch ≠ '/' ∧ ch ≠ '\\') ∧
      e ≠ ['.'] ∧ e ≠ dd) :
    Format.Clean .Windows (d :: ':' :: '\\' :: joinSep '\\' l) =
      d :: ':' :: '\\' :: joinSep '\\' l := by
  have hJ : joinSep (Format.sep .Windows) ([] :: l) = '\\' :: joinSep '\\' l :=
    joinSep_nil_cons '\\' l h0
  have h := clean_rooted .Windows [d, ':'] l h0 hE
    (by rw [hJ]; exact splitVolume_drive d hd ('\\' :: joinSep '\\' l))
  rw [hJ] at h
  exact h

/-- C6 (amended): round-trip holds in both directions for absolute paths
strictly below the mount point.  For any drive letter `d` whose uppercase
form names the mapping `d_VOLUME_PATH`, any canonical mount-point element
sequence `ms`, any nonempty canonical element sequence `ws` below it, and
a path-resolution oracle that is the identity on the input:
Unix→Windows maps `'/' ++ join(ms ++ ws)` to `d:\ ++ join(ws)`,
Windows→Unix maps it back, and each endpoint is its own `Clean` — so
`translate(B, A, translate(A, B, p)) = clean(A, p)` for both `A = Unix`
and `A = Windows`, with arbitrarily many elements below the mount point.
At the mount point / volume root itself both directions fail
(`roundtrip_mount_root`). -/
theorem roundtrip_below_mount
    (d : Char) (ms ws : List (List Char)) (resolve : List Char → List Char)
    (hd : isDriveLetter d = true) (hdu : toUpperC d = d)
    (hms : GoodElems ms) (hws : GoodElems ws)
    (hres : resolve ('/' :: joinSep '/' (ms ++ ws)) =
      '/' :: joinSep '/' (ms ++ ws)) :
    Format.Format [(d :: nixSuffix, '/' :: joinSep '/' ms)] resolve
        .Unix .Windows ('/' :: joinSep '/' (ms ++ ws)) false 0 =
      .ok (d :: ':' :: '\\' :: joinSep '\\' ws, false) ∧
    Format.Format [(d :: nixSuffix, '/' :: joinSep '/' ms)] resolve
        .Windows .Unix (d :: ':' :: '\\' :: joinSep '\\' ws) false 0 =
      .ok ('/' :: joinSep '/' (ms ++ ws), false) ∧
    Format.Clean .Unix ('/' :: joinSep '/' (ms ++ ws)) =
      '/' :: joinSep '/' (ms ++ ws) ∧
    Format.Clean .Windows (d :: ':' :: '\\' :: joinSep '\\' ws) =
      d :: ':' :: '\\' :: joinSep '\\' ws := by
  obtain ⟨hms0, hmsE⟩ := hms
  obtain ⟨hws0, hwsE⟩ := hws
  have hdn := driveLetter_ne d hd
  have hcat0 : ms ++ ws ≠ [] := fun h => hms0 (List.append_eq_nil.mp h).1
  have hcatE : ∀ e ∈ ms ++ ws, e ≠ [] ∧
      (∀ ch ∈ e, ch ≠ '/' ∧ ch ≠ '\\') ∧ e ≠ ['.'] ∧ e ≠ dd := by
    intro e he
    rcases List.mem_append.mp he with h | h
    · exact hmsE e h
    · exact hwsE e h
  have hcleanU : Format.Clean .Unix ('/' :: joinSep '/' (ms ++ ws)) =
      '/' :: joinSep '/' (ms ++ ws) := clean_rooted_unix _ hcat0 hcatE
  have hcleanM : Format.Clean .Unix ('/' :: joinSep '/' ms) =
      '/' :: joinSep '/' ms := clean_rooted_unix ms hms0 hmsE
  have hcleanW : Format.Clean .Windows (d :: ':' :: '\\' :: joinSep '\\' ws) =
      d :: ':' :: '\\' :: joinSep '\\' ws :=
    clean_rooted_windows d hd ws hws0 hwsE
  have hF1 : ('/' : Char) :: joinSep '/' (ms ++ ws) =
      ('/' :: joinSep '/' ms) ++ '/' :: joinSep '/' ws := by
    rw [joinSep_append '/' ms ws hms0 hws0]
    rfl
  have hkey_ne : (d :: nixSuffix) ≠ uncVar := by
    intro h
    rw [show uncVar = 'W' :: str "SL_UNC_PATH" from rfl] at h
    injection h with h1 h2
    exact absurd h2 (by decide)
  have hku : lookupEnv [(d :: nixSuffix, '/' :: joinSep '/' ms)] uncVar =
      none := lookupEnv_single_ne _ _ _ hkey_ne.symm
  have hkey : lookupEnv [(d :: nixSuffix, '/' :: joinSep '/' ms)]
      (d :: nixSuffix) = some ('/' :: joinSep '/' ms) :=
    lookupEnv_single_eq _ _
  have hprem : (('/' : Char) :: joinSep '/' ms).isPrefixOf
      ('/' :: joinSep '/' (ms ++ ws)) = true := by
    rw [hF1]
    exact isPrefixOf_append_self _ _
  have hscan : envScan .Unix ('/' :: joinSep '/' (ms ++ ws))
      [(d :: nixSuffix, '/' :: joinSep '/' ms)] ([], []) =
      (d :: nixSuffix, '/' :: joinSep '/' ms) := by
    rw [envScan, hcleanM]
    rw [if_pos ⟨by simp, isSuffixOf_cons_self d nixSuffix, hprem, by simp⟩]
    rw [envScan]
  have habs : nixToWinAbs [(d :: nixSuffix, '/' :: joinSep '/' ms)]
      ('/' :: joinSep '/' (ms ++ ws)) false =
      .ok ([d, ':'] ++ '/' :: joinSep '/' ws, false) := by
    unfold nixToWinAbs
    simp only []
    rw [hku]
    simp only []
    rw [hscan]
    simp only []
    rw [if_pos (by simp)]
    rw [show ((d :: nixSuffix).take 1 ++ [':'] : List Char) = [d, ':']
      from rfl]
    rw [hF1, replaceFirst_prefix ('/' :: joinSep '/' ms) [d, ':']
      (('/' :: joinSep '/' ms) ++ '/' :: joinSep '/' ws)
      (isPrefixOf_append_self _ _)]
    rw [List.drop_left]
  have hswap1 : sepSwap '/' '\\' ([d, ':'] ++ '/' :: joinSep '/' ws) =
      d :: ':' :: '\\' :: joinSep '\\' ws := by
    show (if d = '/' then '\\' else d) :: ':' :: '\\' ::
      sepSwap '/' '\\' (joinSep '/' ws) = d :: ':' :: '\\' :: joinSep '\\' ws
    rw [if_neg hdn.1,
      joinSep_swap '/' '\\' ws (fun e he ch hch => ((hwsE e he).2.1 ch hch).1)]
  have hswap2 : sepSwap '\\' '/'
      (('/' :: joinSep '/' ms) ++ '\\' :: joinSep '\\' ws) =
      '/' :: joinSep '/' (ms ++ ws) := by
    unfold sepSwap
    rw [List.map_append]
    have h1 := sepSwap_id '\\' '/' ('/' :: joinSep '/' ms) (by
      intro ch hch
      rcases List.mem_cons.mp hch with h | h
      · subst h
        decide
      · rcases joinSep_mem '/' ms ch h with h | ⟨e, he, hche⟩
        · subst h
          decide
        · exact ((hmsE e he).2.1 ch hche).2)
    have h2 := joinSep_swap '\\' '/' ws
      (fun e he ch hch => ((hwsE e he).2.1 ch hch).2)
    unfold sepSwap at h1 h2
    rw [h1]
    rw [show List.map (fun c => if c = '\\' then '/' else c)
        ('\\' :: joinSep '\\' ws) =
      '/' :: List.map (fun c => if c = '\\' then '/' else c)
        (joinSep '\\' ws) from rfl]
    rw [h2]
    exact hF1.symm
  have leg1 : Format.Format [(d :: nixSuffix, '/' :: joinSep '/' ms)] resolve
      .Unix .Windows ('/' :: joinSep '/' (ms ++ ws)) false 0 =
      .ok (d :: ':' :: '\\' :: joinSep '\\' ws, false) := by
    have h1 : Format.Format [(d :: nixSuffix, '/' :: joinSep '/' ms)] resolve
        .Unix .Windows ('/' :: joinSep '/' (ms ++ ws)) false 0 =
        FormatZ [(d :: nixSuffix, '/' :: joinSep '/' ms)] resolve 2
          .Unix .Windows ('/' :: joinSep '/' (ms ++ ws)) false := rfl
    have hstep := FormatZ_unix_abs [(d :: nixSuffix, '/' :: joinSep '/' ms)]
      resolve ('/' :: joinSep '/' (ms ++ ws)) false hcleanU rfl hres
    rw [h1, hstep, habs]
    simp only []
    rw [hswap1, hcleanW]
  have hsubst : winToNixSubst [(d :: nixSuffix, '/' :: joinSep '/' ms)]
      (d :: ':' :: '\\' :: joinSep '\\' ws) =
      .ok (('/' :: joinSep '/' ms) ++ '\\' :: joinSep '\\' ws) := by
    unfold winToNixSubst
    rw [splitVolume_drive d hd ('\\' :: joinSep '\\' ws)]
    simp only []
    rw [if_pos ⟨trivial, hd⟩]
    rw [hdu, hkey]
  have leg2 : Format.Format [(d :: nixSuffix, '/' :: joinSep '/' ms)] resolve
      .Windows .Unix (d :: ':' :: '\\' :: joinSep '\\' ws) false 0 =
      .ok ('/' :: joinSep '/' (ms ++ ws), false) := by
    have h1 : Format.Format [(d :: nixSuffix, '/' :: joinSep '/' ms)] resolve
        .Windows .Unix (d :: ':' :: '\\' :: joinSep '\\' ws) false 0 =
        FormatZ [(d :: nixSuffix, '/' :: joinSep '/' ms)] resolve 2
          .Windows .Unix (d :: ':' :: '\\' :: joinSep '\\' ws) false := rfl
    rw [h1]
    unfold FormatZ
    simp only [if_true]
    rw [hcleanW, hsubst]
    simp only []
    rw [hswap2, hcleanU]
  exact ⟨leg1, leg2, hcleanU, hcleanW⟩

/-- Witness for C6 (amended): `D_VOLUME_PATH=/mnt/c`-style mapping with
drive letter `C`, mount point `/mnt/c`, and the two-element suffix `a/b`,
resolved by the identity oracle. -/
theorem roundtrip_below_mount_witness :
    (isDriveLetter 'C' = true ∧ toUpperC 'C' = 'C' ∧
      GoodElems [str "mnt", str "c"] ∧ GoodElems [str "a", str "b"] ∧
      id ('/' :: joinSep '/' ([str "mnt", str "c"] ++ [str "a", str "b"])) =
        '/' :: joinSep '/' ([str "mnt", str "c"] ++ [str "a", str "b"])) ∧
    (Format.Format
        [('C' :: nixSuffix, '/' :: joinSep '/' [str "mnt", str "c"])] id
        .Unix .Windows
        ('/' :: joinSep '/' ([str "mnt", str "c"] ++ [str "a", str "b"]))
        false 0 =
      .ok ('C' :: ':' :: '\\' :: joinSep '\\' [str "a", str "b"], false) ∧
    Format.Format
        [('C' :: nixSuffix, '/' :: joinSep '/' [str "mnt", str "c"])] id
        .Windows .Unix
        ('C' :: ':' :: '\\' :: joinSep '\\' [str "a", str "b"]) false 0 =
      .ok ('/' :: joinSep '/' ([str "mnt", str "c"] ++ [str "a", str "b"]),
        false) ∧
    Format.Clean .Unix
        ('/' :: joinSep '/' ([str "mnt", str "c"] ++ [str "a", str "b"])) =
      '/' :: joinSep '/' ([str "mnt", str "c"] ++ [str "a", str "b"]) ∧
    Format.Clean .Windows
        ('C' :: ':' :: '\\' :: joinSep '\\' [str "a", str "b"]) =
      'C' :: ':' :: '\\' :: joinSep '\\' [str "a", str "b"]) :=
  ⟨⟨by decide, by decide, by decide, by decide, rfl⟩,
    roundtrip_below_mount 'C' [str "mnt", str "c"] [str "a", str "b"] id
      (by decide) (by decide) (by decide) (by decide) rfl⟩

end Wslpath
